import Mathlib

/-!
# Verification of the NSDUH cross-year variable harmonization engine

Shallow embedding of the harmonization pipeline from
`py/02_build_metadata/helpers/semantic_matcher.py` and
`py/02_build_metadata/build_metadata.py`.

Text is modelled as `List Nat` of Unicode code points (the inputs of
interest are ASCII).  Pandas missing values (`NaN`) are modelled with
`Option`; the `cross_year_confirmed` column uses `[]` for both `''` and
missing, exactly as the code's `notna & != ''` test treats them.
-/

/-- Text is a sequence of Unicode code points. -/
abbrev Text := List Nat

/-- Code points of a string literal (used to write concrete inputs readably). -/
def codes (s : String) : Text := s.data.map Char.toNat

/-- Python `\s` / `str.strip` whitespace (ASCII part): space, \t, \n, \r, \v, \f. -/
def isSpaceCode (n : Nat) : Bool := n = 32 || n = 9 || n = 10 || n = 13 || n = 11 || n = 12

/-- ASCII uppercasing of one code point, as `str.upper()` acts on ASCII. -/
def toUpperCode (n : Nat) : Nat := if 97 ≤ n ∧ n ≤ 122 then n - 32 else n

/-- `str.upper()` on a text. -/
def upperText (t : Text) : Text := t.map toUpperCode

/-- `str.strip()`: drop leading and trailing whitespace. -/
def stripText (t : Text) : Text :=
  ((t.dropWhile isSpaceCode).reverse.dropWhile isSpaceCode).reverse

/-- Does `p` occur at the head of `t`? -/
def leadsWith (p t : Text) : Bool := decide (t.take p.length = p)

/-- Python `in`: substring occurrence. -/
def containsSub (p : Text) : Text → Bool
  | [] => leadsWith p []
  | c :: cs => leadsWith p (c :: cs) || containsSub p cs

/-! ## Label Normalizer — `clean_label` in `semantic_matcher.py`

```python
def clean_label(label):
    if pd.isna(label):
        return ''
    cleaned = str(label).upper().strip()
    cleaned = re.sub(r'^RC-\s*', '', cleaned)
    cleaned = re.sub(r'^(ADULT|YOUTH):\s*', '', cleaned)
    if 'LIFETIME' in cleaned or 'EVER' in cleaned:
        cleaned = re.sub(r'\s*-?\s*EVER\s*USED', '', cleaned)
    return cleaned.strip()
```
-/

/-- `re.sub(r'^RC-\s*', '', t)`: strip a leading `RC-` and following whitespace. -/
def stripRC (t : Text) : Text :=
  if leadsWith [82, 67, 45] t then (t.drop 3).dropWhile isSpaceCode else t

/-- `re.sub(r'^(ADULT|YOUTH):\s*', '', t)`: strip a leading `ADULT:` or `YOUTH:`
and following whitespace. -/
def stripAY (t : Text) : Text :=
  if leadsWith [65, 68, 85, 76, 84, 58] t then (t.drop 6).dropWhile isSpaceCode
  else if leadsWith [89, 79, 85, 84, 72, 58] t then (t.drop 6).dropWhile isSpaceCode
  else t

/-- Match the regex `\s*-?\s*EVER\s*USED` at the head of `t`, returning the
remaining text after the match.  The regex is deterministic here: every
quantified class is disjoint from what follows it, so greedy matching without
backtracking is exact. -/
def tryEver (t : Text) : Option Text :=
  let t1 := t.dropWhile isSpaceCode
  let t2 := if leadsWith [45] t1 then (t1.drop 1).dropWhile isSpaceCode else t1
  if leadsWith [69, 86, 69, 82] t2 then
    let t3 := (t2.drop 4).dropWhile isSpaceCode
    if leadsWith [85, 83, 69, 68] t3 then some (t3.drop 4) else none
  else none

theorem dropWhile_length_le (p : Nat → Bool) (l : Text) :
    (l.dropWhile p).length ≤ l.length :=
  (List.dropWhile_sublist p (l := l)).length_le

theorem leadsWith_length {p t : Text} (h : leadsWith p t = true) :
    p.length ≤ t.length := by
  have := congrArg List.length (of_decide_eq_true h)
  simp only [List.length_take] at this
  omega

theorem tryEver_length {t r : Text} (h : tryEver t = some r) :
    r.length < t.length := by
  unfold tryEver at h
  set t1 := t.dropWhile isSpaceCode with ht1
  have h1 : t1.length ≤ t.length := dropWhile_length_le _ _
  set t2 := if leadsWith [45] t1 then (t1.drop 1).dropWhile isSpaceCode else t1 with ht2
  have h2 : t2.length ≤ t1.length := by
    rw [ht2]; split
    · calc ((t1.drop 1).dropWhile isSpaceCode).length
          ≤ (t1.drop 1).length := dropWhile_length_le _ _
        _ ≤ t1.length := by simp
    · exact Nat.le_refl _
  by_cases he : leadsWith [69, 86, 69, 82] t2
  · rw [if_pos he] at h
    have hlen2 : 4 ≤ t2.length := leadsWith_length he
    set t3 := ((t2.drop 4).dropWhile isSpaceCode) with ht3
    have h3 : t3.length ≤ t2.length - 4 := by
      calc t3.length ≤ (t2.drop 4).length := dropWhile_length_le _ _
        _ = t2.length - 4 := by simp
    by_cases hu : leadsWith [85, 83, 69, 68] t3
    · rw [if_pos hu] at h
      have hlen3 : 4 ≤ t3.length := leadsWith_length hu
      have hr : r = t3.drop 4 := by injection h with h; exact h.symm
      have : r.length = t3.length - 4 := by simp [hr]
      omega
    · rw [if_neg hu] at h; exact absurd h (by simp)
  · rw [if_neg he] at h; exact absurd h (by simp)

/-- `re.sub(r'\s*-?\s*EVER\s*USED', '', t)`, fuel-indexed so that the
definition is structural: remove every (leftmost, non-overlapping) occurrence
of the pattern.  Any `fuel ≥ t.length` computes the substitution. -/
def subEverFuel : Nat → Text → Text
  | 0, t => t
  | _ + 1, [] => []
  | fuel + 1, c :: cs =>
    match tryEver (c :: cs) with
    | some rest => subEverFuel fuel rest
    | none => c :: subEverFuel fuel cs

/-- `re.sub(r'\s*-?\s*EVER\s*USED', '', t)`. -/
def subEver (t : Text) : Text := subEverFuel t.length t

/-- `clean_label` from `semantic_matcher.py`; `none` models a pandas `NaN`. -/
def clean_label : Option Text → Text
  | none => []
  | some label =>
    let c0 := stripText (upperText label)
    let c1 := stripRC c0
    let c2 := stripAY c1
    let c3 :=
      if containsSub [76, 73, 70, 69, 84, 73, 77, 69] c2 || containsSub [69, 86, 69, 82] c2
      then subEver c2 else c2
    stripText c3

example : clean_label (some (codes "RC-ADULT: COCAINE - EVER USED")) = codes "COCAINE" := by decide
example : clean_label (some (codes "ADULT: RC-HEROIN")) = codes "RC-HEROIN" := by decide
example : clean_label (some (codes "MARIJUANA - EVER USED")) = codes "MARIJUANA" := by decide
example : clean_label none = [] := by decide

/-! ### Canonical form of `clean_label` output

`clean_label` always returns text that is uppercase and has no whitespace at
either edge; applying `clean_label` again therefore only changes the result
when the first pass has exposed a fresh strippable prefix or a fresh
`EVER USED` phrase. -/

/-- Every code point is a fixpoint of ASCII uppercasing. -/
def IsUpperP (l : Text) : Prop := ∀ c ∈ l, toUpperCode c = c

/-- No whitespace at either edge. -/
def NoEdgeWs (l : Text) : Prop :=
  (∀ c, l.head? = some c → isSpaceCode c = false) ∧
  (∀ c, l.getLast? = some c → isSpaceCode c = false)

theorem toUpperCode_idem (n : Nat) : toUpperCode (toUpperCode n) = toUpperCode n := by
  unfold toUpperCode
  split <;> rename_i h
  · rw [if_neg (by omega)]
  · rfl

theorem map_id_of_pointwise {f : Nat → Nat} :
    ∀ {l : Text}, (∀ c ∈ l, f c = c) → l.map f = l := by
  intro l
  induction l with
  | nil => intro _; rfl
  | cons a t ih =>
    intro h
    simp only [List.map_cons]
    rw [h a (List.mem_cons_self _ _), ih fun c hc => h c (List.mem_cons_of_mem a hc)]

theorem upperText_isUpper (l : Text) : IsUpperP (upperText l) := by
  intro c hc
  obtain ⟨a, _, rfl⟩ := List.mem_map.mp hc
  exact toUpperCode_idem a

theorem upperText_of_isUpper {l : Text} (h : IsUpperP l) : upperText l = l :=
  map_id_of_pointwise h

theorem isUpper_of_subset {l l' : Text} (h : IsUpperP l) (hsub : ∀ c ∈ l', c ∈ l) :
    IsUpperP l' := fun c hc => h c (hsub c hc)

theorem dropWhile_subset (p : Nat → Bool) (l : Text) : ∀ c ∈ l.dropWhile p, c ∈ l :=
  fun _ hc => (List.dropWhile_sublist p).subset hc

theorem stripText_subset (l : Text) : ∀ c ∈ stripText l, c ∈ l := by
  intro c hc
  unfold stripText at hc
  rw [List.mem_reverse] at hc
  have hc2 := dropWhile_subset isSpaceCode _ c hc
  rw [List.mem_reverse] at hc2
  exact dropWhile_subset isSpaceCode _ c hc2

theorem stripRC_subset (l : Text) : ∀ c ∈ stripRC l, c ∈ l := by
  intro c hc
  unfold stripRC at hc
  split at hc
  · exact (List.drop_sublist 3 l).subset (dropWhile_subset isSpaceCode _ c hc)
  · exact hc

theorem stripAY_subset (l : Text) : ∀ c ∈ stripAY l, c ∈ l := by
  intro c hc
  unfold stripAY at hc
  split at hc
  · exact (List.drop_sublist 6 l).subset (dropWhile_subset isSpaceCode _ c hc)
  · split at hc
    · exact (List.drop_sublist 6 l).subset (dropWhile_subset isSpaceCode _ c hc)
    · exact hc

theorem tryEver_subset {t r : Text} (h : tryEver t = some r) : ∀ c ∈ r, c ∈ t := by
  intro c hc
  unfold tryEver at h
  set t1 := t.dropWhile isSpaceCode with ht1
  set t2 := if leadsWith [45] t1 then (t1.drop 1).dropWhile isSpaceCode else t1 with ht2
  have ht2sub : ∀ c ∈ t2, c ∈ t1 := by
    intro c hc
    rw [ht2] at hc
    split at hc
    · exact (List.drop_sublist 1 t1).subset (dropWhile_subset isSpaceCode _ c hc)
    · exact hc
  by_cases he : leadsWith [69, 86, 69, 82] t2
  · rw [if_pos he] at h
    by_cases hu : leadsWith [85, 83, 69, 68] ((t2.drop 4).dropWhile isSpaceCode)
    · rw [if_pos hu] at h
      injection h with h
      subst h
      have h1 : c ∈ (t2.drop 4).dropWhile isSpaceCode :=
        (List.drop_sublist 4 _).subset hc
      have h2 : c ∈ t2 :=
        (List.drop_sublist 4 t2).subset (dropWhile_subset isSpaceCode _ c h1)
      exact dropWhile_subset isSpaceCode t c (ht2sub c h2)
    · rw [if_neg hu] at h; exact absurd h (by simp)
  · rw [if_neg he] at h; exact absurd h (by simp)

theorem subEverFuel_subset (fuel : Nat) (t : Text) : ∀ c ∈ subEverFuel fuel t, c ∈ t := by
  induction fuel generalizing t with
  | zero => intro c hc; exact hc
  | succ fuel ih =>
    intro c hc
    match t with
    | [] => exact hc
    | a :: cs =>
      unfold subEverFuel at hc
      cases htry : tryEver (a :: cs) with
      | some rest =>
        rw [htry] at hc
        exact tryEver_subset htry c (ih rest c hc)
      | none =>
        rw [htry] at hc
        rcases List.mem_cons.mp hc with rfl | hc
        · exact List.mem_cons_self _ _
        · exact List.mem_cons_of_mem a (ih cs c hc)

theorem subEver_subset (t : Text) : ∀ c ∈ subEver t, c ∈ t :=
  subEverFuel_subset t.length t

/-- The output of `clean_label` is uppercase. -/
theorem clean_label_isUpper (x : Option Text) : IsUpperP (clean_label x) := by
  cases x with
  | none => intro c hc; exact absurd hc (by simp [clean_label])
  | some l =>
    unfold clean_label
    have h0 : IsUpperP (stripText (upperText l)) :=
      isUpper_of_subset (upperText_isUpper l) (stripText_subset _)
    have h1 : IsUpperP (stripRC (stripText (upperText l))) :=
      isUpper_of_subset h0 (stripRC_subset _)
    have h2 : IsUpperP (stripAY (stripRC (stripText (upperText l)))) :=
      isUpper_of_subset h1 (stripAY_subset _)
    have h3 : IsUpperP (if containsSub [76, 73, 70, 69, 84, 73, 77, 69]
        (stripAY (stripRC (stripText (upperText l)))) ||
        containsSub [69, 86, 69, 82] (stripAY (stripRC (stripText (upperText l)))) then
        subEver (stripAY (stripRC (stripText (upperText l))))
      else stripAY (stripRC (stripText (upperText l)))) := by
      split
      · exact isUpper_of_subset h2 (subEver_subset _)
      · exact h2
    exact isUpper_of_subset h3 (stripText_subset _)

theorem dropWhile_head_not (p : Nat → Bool) :
    ∀ {l : Text} {c : Nat}, (l.dropWhile p).head? = some c → p c = false := by
  intro l
  induction l with
  | nil => intro c h; exact absurd h (by simp)
  | cons a t ih =>
    intro c h
    by_cases hp : p a
    · rw [List.dropWhile_cons_of_pos hp] at h
      exact ih h
    · rw [List.dropWhile_cons_of_neg hp] at h
      injection h with h
      subst h
      simpa using hp

theorem dropWhile_isSuffix (p : Nat → Bool) (l : Text) : (l.dropWhile p).IsSuffix l := by
  induction l with
  | nil => exact List.suffix_refl []
  | cons a t ih =>
    by_cases hp : p a
    · rw [List.dropWhile_cons_of_pos hp]
      exact ih.trans (List.suffix_cons a t)
    · rw [List.dropWhile_cons_of_neg hp]

theorem getLast?_of_suffix {s l : Text} (h : s.IsSuffix l) (hne : s ≠ []) :
    s.getLast? = l.getLast? := by
  obtain ⟨pre, rfl⟩ := h
  rw [List.getLast?_append_of_ne_nil pre hne]

/-- Stripping leaves no whitespace at either edge. -/
theorem stripText_noEdgeWs (t : Text) : NoEdgeWs (stripText t) := by
  unfold stripText
  constructor
  · intro c hc
    rw [List.head?_reverse] at hc
    cases hY : ((t.dropWhile isSpaceCode).reverse.dropWhile isSpaceCode) with
    | nil => rw [hY] at hc; exact absurd hc (by simp)
    | cons y ys =>
      rw [hY] at hc
      have hsuf : (y :: ys).IsSuffix (t.dropWhile isSpaceCode).reverse := by
        rw [← hY]; exact dropWhile_isSuffix _ _
      rw [getLast?_of_suffix hsuf (by simp), List.getLast?_reverse] at hc
      exact dropWhile_head_not isSpaceCode hc
  · intro c hc
    rw [List.getLast?_reverse] at hc
    exact dropWhile_head_not isSpaceCode hc

/-- Stripping is the identity on edge-whitespace-free text. -/
theorem stripText_of_noEdgeWs {t : Text} (h : NoEdgeWs t) : stripText t = t := by
  obtain ⟨hh, hl⟩ := h
  unfold stripText
  have h1 : t.dropWhile isSpaceCode = t := by
    cases t with
    | nil => rfl
    | cons a s =>
      rw [List.dropWhile_cons_of_neg]
      simp [hh a rfl]
  rw [h1]
  have h2 : t.reverse.dropWhile isSpaceCode = t.reverse := by
    cases hr : t.reverse with
    | nil => simp
    | cons a s =>
      have ha : t.reverse.head? = some a := by rw [hr]; rfl
      rw [List.head?_reverse] at ha
      rw [List.dropWhile_cons_of_neg (by simp [hl a ha])]
  rw [h2, List.reverse_reverse]

/-- The output of `clean_label` has no whitespace at either edge. -/
theorem clean_label_noEdgeWs (x : Option Text) : NoEdgeWs (clean_label x) := by
  cases x with
  | none =>
    constructor
    · intro c hc; exact absurd hc (by simp [clean_label])
    · intro c hc; exact absurd hc (by simp [clean_label])
  | some l => exact stripText_noEdgeWs _

/-- `tryEver` never succeeds anywhere in `t`. -/
def everFree : Text → Bool
  | [] => true
  | c :: cs => (tryEver (c :: cs)).isNone && everFree cs

theorem subEverFuel_of_everFree :
    ∀ (fuel : Nat) {t : Text}, everFree t = true → subEverFuel fuel t = t := by
  intro fuel
  induction fuel with
  | zero => intro t _; rfl
  | succ fuel ih =>
    intro t h
    match t with
    | [] => rfl
    | a :: cs =>
      unfold everFree at h
      rw [Bool.and_eq_true] at h
      unfold subEverFuel
      cases htry : tryEver (a :: cs) with
      | some rest => rw [htry] at h; exact absurd h.1 (by simp)
      | none => rw [ih h.2]

theorem subEver_of_everFree {t : Text} (h : everFree t = true) : subEver t = t :=
  subEverFuel_of_everFree t.length h

/-- If `clean_label`'s output is a fixpoint of each of the rewrite rules, the
function is idempotent at that point. -/
theorem clean_label_fix {y : Text}
    (hu : IsUpperP y) (hw : NoEdgeWs y)
    (hrc : leadsWith [82, 67, 45] y = false)
    (had : leadsWith [65, 68, 85, 76, 84, 58] y = false)
    (hyo : leadsWith [89, 79, 85, 84, 72, 58] y = false)
    (hev : (containsSub [76, 73, 70, 69, 84, 73, 77, 69] y ||
        containsSub [69, 86, 69, 82] y) = true → everFree y = true) :
    clean_label (some y) = y := by
  show stripText
    (if (containsSub [76, 73, 70, 69, 84, 73, 77, 69]
          (stripAY (stripRC (stripText (upperText y)))) ||
        containsSub [69, 86, 69, 82] (stripAY (stripRC (stripText (upperText y)))))
      then subEver (stripAY (stripRC (stripText (upperText y))))
      else stripAY (stripRC (stripText (upperText y)))) = y
  rw [upperText_of_isUpper hu, stripText_of_noEdgeWs hw]
  rw [show stripRC y = y by unfold stripRC; rw [hrc]; rfl]
  rw [show stripAY y = y by unfold stripAY; rw [had, hyo]; rfl]
  by_cases hc : (containsSub [76, 73, 70, 69, 84, 73, 77, 69] y ||
      containsSub [69, 86, 69, 82] y) = true
  · rw [if_pos hc, subEver_of_everFree (hev hc), stripText_of_noEdgeWs hw]
  · rw [if_neg hc, stripText_of_noEdgeWs hw]

/-! ## Feature Extractor — `extract_semantic_features` in `semantic_matcher.py`

`re.search` of a pattern in a text is existential: it succeeds iff the pattern
matches at some position.  All patterns used are word-boundary–delimited
alternations of alphanumeric words (plus the `PAST\s*(...)` phrases), so a
match at a position is: boundary before, literal word (or `PAST`, whitespace,
alternative), boundary after. -/

/-- Python `\w`: `[A-Za-z0-9_]`. -/
def isWordCode (n : Nat) : Bool :=
  (48 ≤ n && n ≤ 57) || (65 ≤ n && n ≤ 90) || (97 ≤ n && n ≤ 122) || n = 95

/-- `\b` before a word character: start of text or a non-word character before. -/
def boundaryBefore : Option Nat → Bool
  | none => true
  | some c => !(isWordCode c)

/-- `\b` after a word character: end of text or a non-word character next. -/
def tailBoundary : Text → Bool
  | [] => true
  | c :: _ => !(isWordCode c)

/-- Word `w` matches at the head of `t` with a trailing word boundary. -/
def wordHere (w t : Text) : Bool := leadsWith w t && tailBoundary (t.drop w.length)

/-- Scan for `\b(alt1|alt2|...)\b`, `prev` holding the previous code point. -/
def searchWordsFrom (alts : List Text) : Option Nat → Text → Bool
  | _, [] => false
  | prev, c :: cs =>
    (boundaryBefore prev && alts.any fun w => wordHere w (c :: cs)) ||
      searchWordsFrom alts (some c) cs

/-- `re.search(r'\b(alt1|alt2|...)\b', t)` for alphanumeric alternatives. -/
def searchWords (alts : List Text) (t : Text) : Bool := searchWordsFrom alts none t

/-- `PAST\s*(alt1|...)` matches at the head of `t` (with trailing boundary).
`\s*` is greedy and the alternatives start with non-space characters, so the
alternative must start at the first non-space position. -/
def pastHere (alts : List Text) (t : Text) : Bool :=
  leadsWith [80, 65, 83, 84] t &&
    (alts.any fun w => wordHere w ((t.drop 4).dropWhile isSpaceCode))

/-- Scan for `\b(PAST\s*(alt1|...))\b`. -/
def searchPastFrom (alts : List Text) : Option Nat → Text → Bool
  | _, [] => false
  | prev, c :: cs =>
    (boundaryBefore prev && pastHere alts (c :: cs)) || searchPastFrom alts (some c) cs

/-- `re.search(r'\b(PAST\s*(alt1|...))\b', t)`. -/
def searchPast (alts : List Text) (t : Text) : Bool := searchPastFrom alts none t

/-- The ordered `substance_patterns` list from `extract_semantic_features`. -/
def substance_patterns : List (Text × List Text) :=
  [ (codes "marijuana", [codes "MARIJUANA", codes "MRJ", codes "MJ"]),
    (codes "cocaine", [codes "COCAINE", codes "COC", codes "CRACK", codes "CRK"]),
    (codes "heroin", [codes "HEROIN", codes "HER"]),
    (codes "hallucinogen", [codes "HALLUCINOGEN", codes "HAL", codes "LSD", codes "PCP"]),
    (codes "alcohol", [codes "ALCOHOL", codes "ALC"]),
    (codes "tobacco", [codes "TOBACCO", codes "CIG", codes "SMOKE"]),
    (codes "stimulant", [codes "STIMULANT", codes "STIM", codes "METH"]),
    (codes "sedative", [codes "SEDATIVE", codes "SED"]),
    (codes "tranquilizer", [codes "TRANQUILIZER", codes "TRQ"]),
    (codes "painkiller", [codes "PAIN", codes "ANALGESIC", codes "ANL"]),
    (codes "inhalant", [codes "INHALANT", codes "INH"]) ]

/-- The ordered `time_patterns` list: label together with its matcher. -/
def time_patterns : List (Text × (Text → Bool)) :=
  [ (codes "lifetime", searchWords [codes "LIFETIME", codes "EVER"]),
    (codes "past_30_days", searchPast [codes "30", codes "MONTH", codes "MO"]),
    (codes "past_year", searchPast [codes "YEAR", codes "12", codes "YR"]) ]

/-- The `f"{variable_name} {variable_label}".upper()` text; a missing label
formats as `"nan"` (pandas `NaN` is a float). -/
def featureText (variable_name : Text) (variable_label : Option Text) : Text :=
  upperText (variable_name ++ [32] ++ variable_label.getD (codes "nan"))

/-- The result record of `extract_semantic_features`. -/
structure Feats where
  substance : Text
  time_period : Text
  measure_type : Text
deriving DecidableEq, Repr

/-- `extract_semantic_features(variable_name, variable_label)`: the first
matching substance pattern wins (else `"other"`), the first matching time
pattern wins (else `''`), and the measure type is decided by a fixed
`if/elif` chain defaulting to `"use"`. -/
def extract_semantic_features (variable_name : Text) (variable_label : Option Text) : Feats :=
  let text := featureText variable_name variable_label
  let substance := match substance_patterns.find? (fun p => searchWords p.2 text) with
    | some p => p.1
    | none => codes "other"
  let time_period := match time_patterns.find? (fun p => p.2 text) with
    | some p => p.1
    | none => []
  let measure :=
    if searchWords [codes "FLAG", codes "INDICATOR"] text then codes "use_indicator"
    else if searchWords [codes "AGE", codes "FIRST"] text then codes "age_first_use"
    else if searchWords [codes "ABUSE", codes "DEPEND"] text then codes "abuse_dependence"
    else codes "use"
  ⟨substance, time_period, measure⟩

example :
    extract_semantic_features (codes "MRJFLAG") (some (codes "MARIJUANA - EVER USED")) =
      ⟨codes "marijuana", codes "lifetime", codes "use"⟩ := by decide
example :
    extract_semantic_features (codes "X1") (some (codes "RESPONDENT ID")) =
      ⟨codes "other", [], codes "use"⟩ := by decide
example :
    extract_semantic_features (codes "X1") (some (codes "AGE FIRST USE FLAG")) =
      ⟨codes "other", [], codes "use_indicator"⟩ := by decide
example :
    extract_semantic_features (codes "V2") (some (codes "DAYS USED IN PAST MONTH")) =
      ⟨codes "other", codes "past_30_days", codes "use"⟩ := by decide

/-! ## Rows and the Key Builder

`compute_semantic_bridges` receives a dataframe with columns `year`,
`variable_name`, `variable_label` and (optionally) `cross_year_confirmed`;
only those four columns influence the bridge computation.  A missing or
empty `cross_year_confirmed` is modelled as `[]` (the code treats `NaN`
and `''` identically via `notna & != ''`; an absent column behaves like
all-missing). -/

/-- An input row of `compute_semantic_bridges`. -/
structure SRow where
  year : Nat
  variable_name : Text
  variable_label : Option Text
  cross_year_confirmed : Text
deriving DecidableEq, Repr

/-- A row after the row-wise feature and key computation. -/
structure BRow where
  year : Nat
  variable_name : Text
  cross_year_confirmed : Text
  clean_label : Text
  substance : Text
  time_period : Text
  measure_type : Text
  narrow_key : Text
deriving DecidableEq, Repr

/-- The row-wise stage of `compute_semantic_bridges`: apply `clean_label` and
`extract_semantic_features`, then build
`narrow_key = variable_name + '|' + clean_label + '|' + time_period + '|' + substance`
(the `fillna('')` on `time_period` is a no-op: the extractor is total). -/
def featureize (r : SRow) : BRow :=
  let cl := clean_label r.variable_label
  let f := extract_semantic_features r.variable_name r.variable_label
  { year := r.year
    variable_name := r.variable_name
    cross_year_confirmed := r.cross_year_confirmed
    clean_label := cl
    substance := f.substance
    time_period := f.time_period
    measure_type := f.measure_type
    narrow_key := r.variable_name ++ [124] ++ cl ++ [124] ++ f.time_period ++ [124] ++ f.substance }

/-! ## Lexicographic order on texts

Python compares strings (and pandas sorts object columns) by code-point
lexicographic order. -/

/-- Strict lexicographic order on texts (Python `<` on `str`). -/
def ltText : Text → Text → Bool
  | [], [] => false
  | [], _ :: _ => true
  | _ :: _, [] => false
  | a :: as, b :: bs => a < b || (a = b && ltText as bs)

/-- Non-strict lexicographic order. -/
def leText (a b : Text) : Bool := ltText a b || a = b

theorem ltText_irrefl : ∀ a : Text, ltText a a = false := by
  intro a
  induction a with
  | nil => rfl
  | cons c cs ih => simp [ltText, ih]

theorem ltText_trans : ∀ {a b c : Text},
    ltText a b = true → ltText b c = true → ltText a c = true := by
  intro a
  induction a with
  | nil =>
    intro b c hab hbc
    cases b with
    | nil => exact absurd hab (by simp [ltText])
    | cons y ys =>
      cases c with
      | nil => exact absurd hbc (by simp [ltText])
      | cons z zs => simp [ltText]
  | cons x xs ih =>
    intro b c hab hbc
    cases b with
    | nil => exact absurd hab (by simp [ltText])
    | cons y ys =>
      cases c with
      | nil => exact absurd hbc (by simp [ltText])
      | cons z zs =>
        simp only [ltText, Bool.or_eq_true, Bool.and_eq_true, decide_eq_true_eq] at hab hbc ⊢
        rcases hab with h1 | ⟨h1, h1'⟩ <;> rcases hbc with h2 | ⟨h2, h2'⟩
        · exact Or.inl (Nat.lt_trans h1 h2)
        · exact Or.inl (h2 ▸ h1)
        · exact Or.inl (h1 ▸ h2)
        · exact Or.inr ⟨h1.trans h2, ih h1' h2'⟩

theorem ltText_trichot : ∀ a b : Text, ltText a b = true ∨ a = b ∨ ltText b a = true := by
  intro a
  induction a with
  | nil => intro b; cases b <;> simp [ltText]
  | cons x xs ih =>
    intro b
    cases b with
    | nil => simp [ltText]
    | cons y ys =>
      rcases Nat.lt_trichotomy x y with h | h | h
      · exact Or.inl (by simp [ltText, h])
      · subst h
        rcases ih ys with h' | h' | h'
        · exact Or.inl (by simp [ltText, h'])
        · exact Or.inr (Or.inl (by rw [h']))
        · exact Or.inr (Or.inr (by simp [ltText, h']))
      · exact Or.inr (Or.inr (by simp [ltText, h]))

theorem ltText_asymm {a b : Text} (h : ltText a b = true) : ltText b a = false := by
  by_contra h'
  have hb : ltText b a = true := by
    cases hba : ltText b a with
    | false => exact absurd hba h'
    | true => rfl
  have := ltText_trans h hb
  rw [ltText_irrefl] at this
  exact Bool.false_ne_true this

theorem leText_antisymm {a b : Text} (hab : leText a b = true) (hba : leText b a = true) :
    a = b := by
  simp only [leText, Bool.or_eq_true, decide_eq_true_eq] at hab hba
  rcases hab with h | h
  · rcases hba with h' | h'
    · exact absurd (ltText_asymm h) (by simp [h'])
    · exact h'.symm
  · exact h

theorem leText_total (a b : Text) : leText a b = true ∨ leText b a = true := by
  rcases ltText_trichot a b with h | h | h
  · exact Or.inl (by simp [leText, h])
  · exact Or.inl (by simp [leText, h])
  · exact Or.inr (by simp [leText, h])

theorem leText_of_ltText {a b : Text} (h : ltText a b = true) : leText a b = true := by
  simp [leText, h]

theorem ltText_of_leText_ne {a b : Text} (h : leText a b = true) (hne : a ≠ b) :
    ltText a b = true := by
  simp only [leText, Bool.or_eq_true, decide_eq_true_eq] at h
  rcases h with h | h
  · exact h
  · exact absurd h hne

theorem leText_trans {a b c : Text} (hab : leText a b = true) (hbc : leText b c = true) :
    leText a c = true := by
  simp only [leText, Bool.or_eq_true, decide_eq_true_eq] at hab hbc ⊢
  rcases hab with h1 | h1 <;> rcases hbc with h2 | h2
  · exact Or.inl (ltText_trans h1 h2)
  · exact Or.inl (h2 ▸ h1)
  · exact Or.inl (h1 ▸ h2)
  · exact Or.inr (h1.trans h2)

/-! ## Sorting with duplicate removal

`groupby` with the default `sort=True` enumerates group keys in ascending
sorted order, each key once.  We model this as insertion sort followed by
removal of adjacent duplicates. -/

/-- Insert preserving `leText`-sortedness. -/
def insertLe (x : Text) : List Text → List Text
  | [] => [x]
  | y :: ys => if leText x y then x :: y :: ys else y :: insertLe x ys

/-- Insertion sort by `leText`. -/
def sortTexts : List Text → List Text
  | [] => []
  | x :: xs => insertLe x (sortTexts xs)

/-- Collapse adjacent duplicates (sorted input ⇒ all duplicates). -/
def dedupAdj : List Text → List Text
  | [] => []
  | [a] => [a]
  | a :: b :: rest => if a = b then dedupAdj (b :: rest) else a :: dedupAdj (b :: rest)

theorem insertLe_perm (x : Text) (l : List Text) : List.Perm (insertLe x l) (x :: l) := by
  induction l with
  | nil => exact List.Perm.refl _
  | cons y ys ih =>
    unfold insertLe
    split
    · exact List.Perm.refl _
    · exact (List.Perm.cons y ih).trans (List.Perm.swap x y ys)

theorem sortTexts_perm (l : List Text) : List.Perm (sortTexts l) l := by
  induction l with
  | nil => exact List.Perm.refl _
  | cons x xs ih => exact (insertLe_perm x (sortTexts xs)).trans (List.Perm.cons x ih)

/-- Sortedness as a pairwise predicate. -/
def SortedLe (l : List Text) : Prop := l.Pairwise (fun a b => leText a b = true)

theorem insertLe_sorted {x : Text} {l : List Text} (h : SortedLe l) :
    SortedLe (insertLe x l) := by
  induction l with
  | nil => exact List.pairwise_singleton _ _
  | cons y ys ih =>
    unfold insertLe
    split
    · rename_i hxy
      refine List.Pairwise.cons ?_ h
      intro b hb
      rcases List.mem_cons.mp hb with rfl | hb
      · exact hxy
      · exact leText_trans hxy ((List.pairwise_cons.mp h).1 b hb)
    · rename_i hxy
      have hys := (List.pairwise_cons.mp h).2
      refine List.Pairwise.cons ?_ (ih hys)
      intro b hb
      have hb' := (insertLe_perm x ys).mem_iff.mp hb
      rcases List.mem_cons.mp hb' with rfl | hb'
      · rcases leText_total b y with h' | h'
        · exact absurd h' (by simpa using hxy)
        · exact h'
      · exact (List.pairwise_cons.mp h).1 b hb'

theorem sortTexts_sorted (l : List Text) : SortedLe (sortTexts l) := by
  induction l with
  | nil => exact List.Pairwise.nil
  | cons x xs ih => exact insertLe_sorted ih

theorem dedupAdj_subset {l : List Text} {x : Text} (h : x ∈ dedupAdj l) : x ∈ l := by
  induction l with
  | nil => exact absurd h (by simp [dedupAdj])
  | cons a rest ih =>
    cases rest with
    | nil => exact h
    | cons b t =>
      unfold dedupAdj at h
      split at h
      · exact List.mem_cons_of_mem a (ih h)
      · rcases List.mem_cons.mp h with rfl | h
        · exact List.mem_cons_self _ _
        · exact List.mem_cons_of_mem a (ih h)

theorem mem_dedupAdj {l : List Text} {x : Text} (h : x ∈ l) : x ∈ dedupAdj l := by
  induction l with
  | nil => exact absurd h (by simp)
  | cons a rest ih =>
    cases rest with
    | nil => exact h
    | cons b t =>
      unfold dedupAdj
      split
      · rename_i hab
        rcases List.mem_cons.mp h with rfl | h
        · exact ih (hab ▸ List.mem_cons_self _ _)
        · exact ih h
      · rcases List.mem_cons.mp h with rfl | h
        · exact List.mem_cons_self _ _
        · exact List.mem_cons_of_mem a (ih h)

/-- Strict sortedness of the deduplicated sorted list. -/
def SortedLt (l : List Text) : Prop := l.Pairwise (fun a b => ltText a b = true)

theorem dedupAdj_sortedLt {l : List Text} (h : SortedLe l) : SortedLt (dedupAdj l) := by
  induction l with
  | nil => exact List.Pairwise.nil
  | cons a rest ih =>
    cases rest with
    | nil => exact List.pairwise_singleton _ _
    | cons b t =>
      have hrest : SortedLe (b :: t) := (List.pairwise_cons.mp h).2
      have hfst := (List.pairwise_cons.mp h).1
      unfold dedupAdj
      split
      · exact ih hrest
      · rename_i hab
        refine List.Pairwise.cons ?_ (ih hrest)
        intro c hc
        have hc' : c ∈ b :: t := dedupAdj_subset hc
        have hle : leText a c = true := hfst c hc'
        refine ltText_of_leText_ne hle ?_
        rintro rfl
        rcases List.mem_cons.mp hc' with rfl | hmem
        · exact hab rfl
        · have h1 : leText a b = true := hfst b (List.mem_cons_self _ _)
          have h2 : leText b a = true := (List.pairwise_cons.mp hrest).1 a hmem
          exact hab (leText_antisymm h1 h2)

/-- The canonical sorted duplicate-free enumeration of a list of texts. -/
def sortedUnique (l : List Text) : List Text := dedupAdj (sortTexts l)

theorem mem_sortedUnique {l : List Text} {x : Text} : x ∈ sortedUnique l ↔ x ∈ l := by
  constructor
  · intro h
    exact (sortTexts_perm l).mem_iff.mp (dedupAdj_subset h)
  · intro h
    exact mem_dedupAdj ((sortTexts_perm l).mem_iff.mpr h)

theorem sortedUnique_sortedLt (l : List Text) : SortedLt (sortedUnique l) :=
  dedupAdj_sortedLt (sortTexts_sorted l)

/-! ## Equivalence Expander — `expand_keys_with_confirmed` in `semantic_matcher.py`

```python
key_to_confirmed = {}
for confirmed_id, keys in (
    df.loc[has_confirmed].groupby('cross_year_confirmed')[key_col].unique().items()
):
    for key in keys:
        if key not in key_to_confirmed:
            key_to_confirmed[key] = confirmed_id
df[key_col] = df[key_col].map(lambda k: key_to_confirmed.get(k, k))
```

`groupby(...)` (default `sort=True`) enumerates the distinct non-empty
`cross_year_confirmed` values in ascending lexicographic order; for each it
yields the `narrow_key` values of its rows (`.unique()` deduplicates within a
group, which cannot change the resulting dict: insertion is skipped for
already-present keys anyway). -/

/-- The distinct non-empty `cross_year_confirmed` values, in the sorted order
`groupby` enumerates them. -/
def confirmedIds (rows : List BRow) : List Text :=
  sortedUnique ((rows.filter fun r => decide (r.cross_year_confirmed ≠ [])).map
    (·.cross_year_confirmed))

/-- The `narrow_key` values observed among the (confirmed) rows of group `c`. -/
def keysOf (rows : List BRow) (c : Text) : List Text :=
  (rows.filter fun r => decide (r.cross_year_confirmed = c ∧ c ≠ [])).map (·.narrow_key)

/-- Association-list lookup (first binding wins), modelling the Python dict. -/
def lookupA (m : List (Text × Text)) (k : Text) : Option Text :=
  match m with
  | [] => none
  | p :: ps => if p.1 = k then some p.2 else lookupA ps k

/-- Insert each key of one group, skipping keys that are already mapped. -/
def insertKeys (acc : List (Text × Text)) (c : Text) (ks : List Text) : List (Text × Text) :=
  ks.foldl (fun a k => if (lookupA a k).isSome then a else (k, c) :: a) acc

/-- The `key_to_confirmed` dict after the double loop. -/
def key_to_confirmed (rows : List BRow) : List (Text × Text) :=
  (confirmedIds rows).foldl (fun acc c => insertKeys acc c (keysOf rows c)) []

/-- `key_to_confirmed.get(k, k)` applied to one key. -/
def expandKey (rows : List BRow) (k : Text) : Text :=
  (lookupA (key_to_confirmed rows) k).getD k

/-- The whole expansion pass: replace every row's `narrow_key` using the dict
built from the same dataframe. -/
def expand_keys_with_confirmed (rows : List BRow) : List BRow :=
  rows.map fun r => { r with narrow_key := expandKey rows r.narrow_key }

theorem lookupA_insertKeys (acc : List (Text × Text)) (c : Text) (ks : List Text) (q : Text) :
    lookupA (insertKeys acc c ks) q =
      match lookupA acc q with
      | some v => some v
      | none => if q ∈ ks then some c else none := by
  induction ks generalizing acc with
  | nil => cases h : lookupA acc q <;> simp [insertKeys, h]
  | cons k ks ih =>
    show lookupA (insertKeys (if (lookupA acc k).isSome then acc
      else (k, c) :: acc) c ks) q = _
    rw [ih]
    by_cases hk : (lookupA acc k).isSome
    · rw [if_pos hk]
      cases hq : lookupA acc q with
      | some v => simp [hq]
      | none =>
        have hqk : q ≠ k := by
          rintro rfl
          rw [hq] at hk
          exact Bool.false_ne_true hk
        simp only [hq, List.mem_cons]
        by_cases hmem : q ∈ ks <;> simp [hmem, hqk]
    · rw [if_neg hk]
      by_cases hqk : q = k
      · subst hqk
        have hnone : lookupA acc q = none := by
          cases h : lookupA acc q with
          | none => rfl
          | some v => rw [h] at hk; simp at hk
        simp [lookupA, hnone, List.mem_cons]
      · have hstep : lookupA ((k, c) :: acc) q = lookupA acc q := by
          simp [lookupA, Ne.symm hqk]
        rw [hstep]
        cases hq : lookupA acc q with
        | some v => simp [hq]
        | none => simp [hq, List.mem_cons, hqk]

theorem lookupA_foldGroups (rows : List BRow) (ids : List Text)
    (acc : List (Text × Text)) (q : Text) :
    lookupA (ids.foldl (fun acc c => insertKeys acc c (keysOf rows c)) acc) q =
      match lookupA acc q with
      | some v => some v
      | none => ids.find? fun c => decide (q ∈ keysOf rows c) := by
  induction ids generalizing acc with
  | nil => cases h : lookupA acc q <;> simp [h]
  | cons c ids ih =>
    show lookupA (ids.foldl _ (insertKeys acc c (keysOf rows c))) q = _
    rw [ih, lookupA_insertKeys]
    cases hq : lookupA acc q with
    | some v => simp [hq]
    | none =>
      simp only [hq]
      by_cases hmem : q ∈ keysOf rows c
      · rw [if_pos hmem, List.find?_cons_of_pos _ (by simpa using hmem)]
      · rw [if_neg hmem, List.find?_cons_of_neg _ (by simpa using hmem)]

/-- The dict lookup is: first (in ascending id order) confirmed group whose
key set contains `q`. -/
theorem key_to_confirmed_spec (rows : List BRow) (q : Text) :
    lookupA (key_to_confirmed rows) q =
      (confirmedIds rows).find? fun c => decide (q ∈ keysOf rows c) := by
  have := lookupA_foldGroups rows (confirmedIds rows) [] q
  simpa [key_to_confirmed, lookupA] using this

/-! ## Bridge Assigner — tail of `compute_semantic_bridges`

```python
narrow_group_info = (
    df[['narrow_key', 'year', 'variable_name']]
    .sort_values(['year', 'variable_name'])
    .groupby('narrow_key', sort=False)
    .first()
)
df['cross_year_narrow'] = df['narrow_key'].map(
    lambda k: f"{narrow_group_info.at[k, 'variable_name']}_narrow_{int(narrow_group_info.at[k, 'year'])}"
)
```

Sorting by `(year, variable_name)` ascending and taking the first row of each
`narrow_key` group selects, per key, a row whose `(year, variable_name)` pair
is minimal in the lexicographic product order (stable sort; equal pairs give
the same output either way). -/

/-- Strict product order on `(year, variable_name)`. -/
def ltPair (a b : Nat × Text) : Bool :=
  a.1 < b.1 || (a.1 = b.1 && ltText a.2 b.2)

/-- Non-strict product order. -/
def LePairP (a b : Nat × Text) : Prop := ltPair a b = true ∨ a = b

/-- Keep the smaller pair, the current one on ties (stable-sort behaviour). -/
def minPair (a b : Nat × Text) : Nat × Text := if ltPair b a then b else a

/-- The `(year, variable_name)` pairs of the rows of group `k`. -/
def groupPairs (rows : List BRow) (k : Text) : List (Nat × Text) :=
  (rows.filter fun r => decide (r.narrow_key = k)).map fun r => (r.year, r.variable_name)

/-- Fuelled decimal rendering (`fuel ≥ n` suffices). -/
def natCodesAux : Nat → Nat → List Nat
  | 0, _ => []
  | fuel + 1, n => if n < 10 then [48 + n] else natCodesAux fuel (n / 10) ++ [48 + n % 10]

/-- Decimal digit codes of a natural number. -/
def natCodes (n : Nat) : List Nat := natCodesAux (n + 1) n

/-- The canonical bridge id of the representative `(year, variable_name)`. -/
def mkNarrowId (variable_name : Text) (year : Nat) : Text :=
  variable_name ++ codes "_narrow_" ++ natCodes year

/-- The `cross_year_narrow` value assigned to every row whose (expanded)
`narrow_key` is `k`: the id of the group member minimizing
`(year, variable_name)`.  Empty groups never arise for keys present in the
dataframe. -/
def bridgeId (rows : List BRow) (k : Text) : Text :=
  match groupPairs rows k with
  | [] => []
  | p :: ps =>
    let rep := ps.foldl minPair p
    mkNarrowId rep.2 rep.1

/-- Attach `cross_year_narrow` to every row. -/
def assignNarrow (rows : List BRow) : List (BRow × Text) :=
  rows.map fun r => (r, bridgeId rows r.narrow_key)

/-- `compute_semantic_bridges`: row-wise features and keys, then key
expansion, then bridge assignment.  The output pairs each row with its
`cross_year_narrow` value. -/
def compute_semantic_bridges (rows : List SRow) : List (BRow × Text) :=
  assignNarrow (expand_keys_with_confirmed (rows.map featureize))

example : natCodes 2002 = codes "2002" := by decide
example : mkNarrowId (codes "MRJFLAG") 2002 = codes "MRJFLAG_narrow_2002" := by decide

/-! ## Metadata Merger — `build_variable_metadata` in `build_metadata.py`

Relevant stages (lines 59–94): left-join the concordance on
`(year, variable_name)`, derive `cross_year_confirmed`, then call
`compute_semantic_bridges`. -/

/-- A row of the base (Stata) metadata source. -/
structure BaseRow where
  year : Nat
  variable_name : Text
  variable_label : Option Text
deriving DecidableEq, Repr

/-- A row of the combined concordance table (`load_concordance_files` output);
`confirmed_group` is non-empty by construction there. -/
structure ConcRow where
  year : Nat
  variable_name : Text
  confirmed_group : Text
  concordance_file : Text
deriving DecidableEq, Repr

/-- A row after the `how='left'` merge on `(year, variable_name)`. -/
structure JRow where
  year : Nat
  variable_name : Text
  variable_label : Option Text
  confirmed_group : Option Text
  concordance_file : Option Text
deriving DecidableEq, Repr

/-- Pandas left merge on `(year, variable_name)`: every base row is emitted
once per matching concordance row, or once with nulls when nothing matches. -/
def leftJoin (base : List BaseRow) (conc : List ConcRow) : List JRow :=
  base.flatMap fun b =>
    match conc.filter (fun c => decide (c.year = b.year ∧ c.variable_name = b.variable_name)) with
    | [] => [⟨b.year, b.variable_name, b.variable_label, none, none⟩]
    | ms => ms.map fun c =>
        ⟨b.year, b.variable_name, b.variable_label, some c.confirmed_group, some c.concordance_file⟩

/-- Derivation of `cross_year_confirmed` (build_metadata.py lines 76–83):
`variable_name + '_' + concordance_file + '_' + confirmed_group` when
`confirmed_group` is present and non-empty, else `''`.  `astype(str)` renders
a missing `concordance_file` as `"nan"`. -/
def deriveConfirmed (j : JRow) : SRow :=
  let cyc := match j.confirmed_group with
    | none => []
    | some g =>
      if g ≠ [] then
        j.variable_name ++ [95] ++ j.concordance_file.getD (codes "nan") ++ [95] ++ g
      else []
  ⟨j.year, j.variable_name, j.variable_label, cyc⟩

/-- The merge-and-bridge portion of `build_variable_metadata`. -/
def build_variable_metadata (base : List BaseRow) (conc : List ConcRow) : List (BRow × Text) :=
  compute_semantic_bridges ((leftJoin base conc).map deriveConfirmed)

/-- The semantic-bridge stage touches no `(year, variable_name)` pair: it maps
rows one to one. -/
theorem compute_semantic_bridges_pairs (srows : List SRow) :
    (compute_semantic_bridges srows).map (fun p => (p.1.year, p.1.variable_name)) =
      srows.map fun s => (s.year, s.variable_name) := by
  unfold compute_semantic_bridges assignNarrow expand_keys_with_confirmed
  rw [List.map_map, List.map_map, List.map_map]
  rfl

/-! ### Product-order lemmas for the Bridge Assigner -/

theorem ltPair_trans {a b c : Nat × Text} (hab : ltPair a b = true) (hbc : ltPair b c = true) :
    ltPair a c = true := by
  unfold ltPair at *
  simp only [Bool.or_eq_true, Bool.and_eq_true, decide_eq_true_eq] at hab hbc ⊢
  rcases hab with h1 | ⟨h1, h1'⟩ <;> rcases hbc with h2 | ⟨h2, h2'⟩
  · exact Or.inl (Nat.lt_trans h1 h2)
  · exact Or.inl (h2 ▸ h1)
  · exact Or.inl (h1 ▸ h2)
  · exact Or.inr ⟨h1.trans h2, ltText_trans h1' h2'⟩

theorem ltPair_irrefl (a : Nat × Text) : ltPair a a = false := by
  unfold ltPair
  simp [Nat.lt_irrefl, ltText_irrefl]

theorem lePair_trans {a b c : Nat × Text} (hab : LePairP a b) (hbc : LePairP b c) :
    LePairP a c := by
  rcases hab with h1 | rfl
  · rcases hbc with h2 | rfl
    · exact Or.inl (ltPair_trans h1 h2)
    · exact Or.inl h1
  · exact hbc

theorem lePair_antisymm {a b : Nat × Text} (hab : LePairP a b) (hba : LePairP b a) :
    a = b := by
  rcases hab with h1 | rfl
  · rcases hba with h2 | rfl
    · have := ltPair_trans h1 h2
      rw [ltPair_irrefl] at this
      exact absurd this (by simp)
    · rfl
  · rfl

theorem foldl_minPair_mem (p : Nat × Text) (ps : List (Nat × Text)) :
    ps.foldl minPair p ∈ p :: ps := by
  induction ps generalizing p with
  | nil => simp
  | cons q ps ih =>
    show ps.foldl minPair (minPair p q) ∈ p :: q :: ps
    have h := ih (minPair p q)
    rcases List.mem_cons.mp h with h | h
    · rw [h]
      unfold minPair
      split
      · exact List.mem_cons_of_mem p (List.mem_cons_self q ps)
      · exact List.mem_cons_self _ _
    · exact List.mem_cons_of_mem p (List.mem_cons_of_mem q h)

theorem minPair_le_left (p q : Nat × Text) : LePairP (minPair p q) p := by
  unfold minPair
  split
  · exact Or.inl ‹_›
  · exact Or.inr rfl

theorem minPair_le_right (p q : Nat × Text) : LePairP (minPair p q) q := by
  unfold minPair
  split
  · exact Or.inr rfl
  · rename_i h
    rcases (by
      rcases Nat.lt_trichotomy p.1 q.1 with h' | h' | h'
      · exact Or.inl (by unfold ltPair; simp [h'])
      · rcases ltText_trichot p.2 q.2 with h'' | h'' | h''
        · exact Or.inl (by unfold ltPair; simp [h', h''])
        · exact Or.inr (Prod.ext h' h'')
        · exact absurd (by unfold ltPair; simp [h'.symm, h''] : ltPair q p = true) (by simp [h])
      · exact absurd (by unfold ltPair; simp [h'] : ltPair q p = true) (by simp [h])
      : LePairP p q) with h' | h'
    · exact Or.inl h'
    · exact Or.inr h'

theorem foldl_minPair_le (p : Nat × Text) (ps : List (Nat × Text)) :
    ∀ x ∈ p :: ps, LePairP (ps.foldl minPair p) x := by
  induction ps generalizing p with
  | nil =>
    intro x hx
    rcases List.mem_cons.mp hx with rfl | hx
    · exact Or.inr rfl
    · exact absurd hx (by simp)
  | cons q ps ih =>
    intro x hx
    show LePairP (ps.foldl minPair (minPair p q)) x
    have hle : LePairP (ps.foldl minPair (minPair p q)) (minPair p q) :=
      ih (minPair p q) _ (List.mem_cons_self _ _)
    rcases List.mem_cons.mp hx with rfl | hx
    · exact lePair_trans hle (minPair_le_left x q)
    · rcases List.mem_cons.mp hx with rfl | hx
      · exact lePair_trans hle (minPair_le_right p x)
      · exact ih (minPair p q) x (List.mem_cons_of_mem _ hx)

/-- The representative chosen for a non-empty group is its `(year, name)`
minimum, so `bridgeId` is invariant under permutations of the rows. -/
theorem bridgeId_perm {rows rows' : List BRow} (h : List.Perm rows rows') (k : Text) :
    bridgeId rows k = bridgeId rows' k := by
  have hperm : List.Perm (groupPairs rows k) (groupPairs rows' k) :=
    (h.filter _).map _
  unfold bridgeId
  cases hg : groupPairs rows k with
  | nil =>
    rw [hg] at hperm
    have := List.Perm.nil_eq hperm
    rw [← this]
  | cons p ps =>
    rw [hg] at hperm
    cases hg' : groupPairs rows' k with
    | nil =>
      rw [hg'] at hperm
      exact absurd (List.Perm.eq_nil hperm) (by simp)
    | cons p' ps' =>
      rw [hg'] at hperm
      have hmem1 : ps.foldl minPair p ∈ p' :: ps' :=
        hperm.mem_iff.mp (foldl_minPair_mem p ps)
      have hmem2 : ps'.foldl minPair p' ∈ p :: ps :=
        hperm.symm.mem_iff.mp (foldl_minPair_mem p' ps')
      have h12 : LePairP (ps.foldl minPair p) (ps'.foldl minPair p') :=
        foldl_minPair_le p ps _ hmem2
      have h21 : LePairP (ps'.foldl minPair p') (ps.foldl minPair p) :=
        foldl_minPair_le p' ps' _ hmem1
      show mkNarrowId (ps.foldl minPair p).2 (ps.foldl minPair p).1 =
        mkNarrowId (ps'.foldl minPair p').2 (ps'.foldl minPair p').1
      rw [lePair_antisymm h12 h21]

/-! ### Row-preservation lemmas for the Metadata Merger -/

/-- With no duplicate `(year, variable_name)` in the concordance, at most one
concordance row matches a base row. -/
theorem conc_filter_length_le_one {conc : List ConcRow}
    (h : (conc.map fun c => (c.year, c.variable_name)).Nodup) (y : Nat) (n : Text) :
    (conc.filter fun c => decide (c.year = y ∧ c.variable_name = n)).length ≤ 1 := by
  induction conc with
  | nil => simp
  | cons c t ih =>
    rw [List.map_cons, List.nodup_cons] at h
    by_cases hc : c.year = y ∧ c.variable_name = n
    · rw [List.filter_cons_of_pos (by simpa using hc)]
      have hnil : t.filter (fun c => decide (c.year = y ∧ c.variable_name = n)) = [] := by
        rw [List.filter_eq_nil_iff]
        intro x hx hpx
        have hpx' : x.year = y ∧ x.variable_name = n := by simpa using hpx
        exact h.1 (List.mem_map.mpr ⟨x, hx,
          by rw [hpx'.1, hpx'.2, hc.1, hc.2]⟩)
      rw [hnil]
      exact Nat.le_refl 1
    · rw [List.filter_cons_of_neg (by simpa using hc)]
      exact ih h.2

/-- The left join emits exactly one row per base row when the concordance has
unique `(year, variable_name)` keys, and preserves those pairs in order. -/
theorem leftJoin_pairs {base : List BaseRow} {conc : List ConcRow}
    (h : (conc.map fun c => (c.year, c.variable_name)).Nodup) :
    (leftJoin base conc).map (fun j => (j.year, j.variable_name)) =
      base.map fun b => (b.year, b.variable_name) := by
  induction base with
  | nil => rfl
  | cons b t ih =>
    show ((match conc.filter (fun c => decide (c.year = b.year ∧ c.variable_name = b.variable_name)) with
      | [] => [(⟨b.year, b.variable_name, b.variable_label, none, none⟩ : JRow)]
      | ms => ms.map fun c =>
          ⟨b.year, b.variable_name, b.variable_label, some c.confirmed_group, some c.concordance_file⟩)
      ++ leftJoin t conc).map (fun j => (j.year, j.variable_name)) = _
    rw [List.map_append]
    have hle := conc_filter_length_le_one h b.year b.variable_name
    cases hf : conc.filter (fun c => decide (c.year = b.year ∧ c.variable_name = b.variable_name)) with
    | nil =>
      rw [List.map_cons]
      rw [ih]
      rfl
    | cons c cs =>
      cases cs with
      | nil =>
        rw [ih]
        rfl
      | cons c2 cs2 =>
        rw [hf] at hle
        simp at hle


theorem find?_min_of_sortedLt {l : List Text} {p : Text → Bool} {c : Text}
    (hs : SortedLt l) (h : l.find? p = some c) :
    c ∈ l ∧ p c = true ∧ ∀ x ∈ l, p x = true → leText c x := by
  induction l with
  | nil => exact absurd h (by simp)
  | cons a t ih =>
    rcases List.pairwise_cons.mp hs with ⟨ha, ht⟩
    by_cases hp : p a
    · rw [List.find?_cons_of_pos _ hp] at h
      injection h with h
      subst h
      refine ⟨List.mem_cons_self _ _, hp, ?_⟩
      intro x hx _
      rcases List.mem_cons.mp hx with rfl | hx
      · simp [leText]
      · exact leText_of_ltText (ha x hx)
    · rw [List.find?_cons_of_neg _ (by simpa using hp)] at h
      obtain ⟨hc, hpc, hmin⟩ := ih ht h
      refine ⟨List.mem_cons_of_mem a hc, hpc, ?_⟩
      intro x hx hpx
      rcases List.mem_cons.mp hx with rfl | hx
      · exact absurd hpx (by simpa using hp)
      · exact hmin x hx hpx

theorem find?_eq_some_of_min {l : List Text} {p : Text → Bool} {c : Text}
    (hs : SortedLt l) (hc : c ∈ l) (hp : p c = true)
    (hmin : ∀ x ∈ l, p x = true → leText c x) :
    l.find? p = some c := by
  induction l with
  | nil => exact absurd hc (by simp)
  | cons a t ih =>
    rcases List.pairwise_cons.mp hs with ⟨ha, ht⟩
    rcases List.mem_cons.mp hc with rfl | hc
    · rw [List.find?_cons_of_pos _ hp]
    · by_cases hpa : p a
      · have hle : leText c a := hmin a (List.mem_cons_self _ _) hpa
        have hlt : ltText a c = true := ha c hc
        have : a = c := leText_antisymm (leText_of_ltText hlt) hle
        rw [List.find?_cons_of_pos _ hpa, this]
      · rw [List.find?_cons_of_neg _ (by simpa using hpa)]
        exact ih ht hc fun x hx hpx => hmin x (List.mem_cons_of_mem a hx) hpx

theorem mem_keysOf {rows : List BRow} {c q : Text} :
    q ∈ keysOf rows c ↔
      ∃ r ∈ rows, r.cross_year_confirmed = c ∧ c ≠ [] ∧ r.narrow_key = q := by
  unfold keysOf
  simp only [List.mem_map, List.mem_filter, decide_eq_true_eq]
  constructor
  · rintro ⟨r, ⟨hr, hcyc, hc⟩, hk⟩
    exact ⟨r, hr, hcyc, hc, hk⟩
  · rintro ⟨r, hr, hcyc, hc, hk⟩
    exact ⟨r, ⟨hr, hcyc, hc⟩, hk⟩

theorem mem_confirmedIds {rows : List BRow} {c : Text} :
    c ∈ confirmedIds rows ↔ ∃ r ∈ rows, r.cross_year_confirmed = c ∧ c ≠ [] := by
  unfold confirmedIds
  rw [mem_sortedUnique]
  simp only [List.mem_map, List.mem_filter, decide_eq_true_eq]
  constructor
  · rintro ⟨r, ⟨hr, hne⟩, hc⟩
    exact ⟨r, hr, hc, hc ▸ hne⟩
  · rintro ⟨r, hr, hc, hne⟩
    exact ⟨r, ⟨hr, hc ▸ hne⟩, hc⟩

/-- Structure of a successful expansion lookup: the mapped-to id is the
lexicographically least confirmed group claiming the key. -/
theorem expandKey_spec {rows : List BRow} {q : Text}
    (h : ∃ r ∈ rows, r.cross_year_confirmed ≠ [] ∧ r.narrow_key = q) :
    ∃ c, lookupA (key_to_confirmed rows) q = some c ∧
      (∃ r ∈ rows, r.cross_year_confirmed = c ∧ c ≠ [] ∧ r.narrow_key = q) ∧
      ∀ r ∈ rows, r.cross_year_confirmed ≠ [] → r.narrow_key = q →
        leText c r.cross_year_confirmed = true := by
  obtain ⟨r0, hr0, hne0, hk0⟩ := h
  set c0 := r0.cross_year_confirmed with hc0
  have hc0mem : c0 ∈ confirmedIds rows := mem_confirmedIds.mpr ⟨r0, hr0, rfl, hne0⟩
  have hq0 : q ∈ keysOf rows c0 := mem_keysOf.mpr ⟨r0, hr0, rfl, hne0, hk0⟩
  have hfind : ∃ c, (confirmedIds rows).find? (fun c => decide (q ∈ keysOf rows c)) = some c := by
    cases hf : (confirmedIds rows).find? (fun c => decide (q ∈ keysOf rows c)) with
    | some c => exact ⟨c, rfl⟩
    | none =>
      have := List.find?_eq_none.mp hf c0 hc0mem
      simp [hq0] at this
  obtain ⟨c, hc⟩ := hfind
  obtain ⟨hcmem, hcp, hcmin⟩ := find?_min_of_sortedLt (sortedUnique_sortedLt _) hc
  refine ⟨c, by rw [key_to_confirmed_spec]; exact hc, ?_, ?_⟩
  · have := of_decide_eq_true hcp
    exact mem_keysOf.mp this
  · intro r hr hne hk
    have hcmem' : r.cross_year_confirmed ∈ confirmedIds rows :=
      mem_confirmedIds.mpr ⟨r, hr, rfl, hne⟩
    have hql : q ∈ keysOf rows r.cross_year_confirmed :=
      mem_keysOf.mpr ⟨r, hr, rfl, hne, hk⟩
    exact hcmin _ hcmem' (by simpa using hql)

/-- A key of some confirmed row is always mapped by the dict. -/
theorem lookupA_isSome_of_confirmed {rows : List BRow} {q : Text}
    (h : ∃ r ∈ rows, r.cross_year_confirmed ≠ [] ∧ r.narrow_key = q) :
    ∃ c, lookupA (key_to_confirmed rows) q = some c := by
  obtain ⟨c, hc, _, _⟩ := expandKey_spec h
  exact ⟨c, hc⟩

/-- Conversely, a mapped key is the key of some confirmed row. -/
theorem lookupA_some_claimed {rows : List BRow} {q c : Text}
    (h : lookupA (key_to_confirmed rows) q = some c) :
    ∃ r ∈ rows, r.cross_year_confirmed = c ∧ c ≠ [] ∧ r.narrow_key = q := by
  rw [key_to_confirmed_spec] at h
  obtain ⟨_, hcp, _⟩ := find?_min_of_sortedLt (sortedUnique_sortedLt _) h
  exact mem_keysOf.mp (of_decide_eq_true hcp)

/-- A mapped key maps to the least confirmed group claiming it. -/
theorem lookupA_some_min {rows : List BRow} {q c : Text}
    (h : lookupA (key_to_confirmed rows) q = some c) :
    ∀ c' ∈ confirmedIds rows, q ∈ keysOf rows c' → leText c c' = true := by
  rw [key_to_confirmed_spec] at h
  obtain ⟨_, _, hmin⟩ := find?_min_of_sortedLt (sortedUnique_sortedLt _) h
  intro c' hc' hq
  exact hmin c' hc' (by simpa using hq)

/-! ### Idempotence of the expansion pass -/

theorem confirmedIds_mapKey (rows : List BRow) (g : Text → Text) :
    confirmedIds (rows.map fun r => { r with narrow_key := g r.narrow_key }) =
      confirmedIds rows := by
  unfold confirmedIds
  rw [List.filter_map, List.map_map]
  rfl

theorem keysOf_mapKey (rows : List BRow) (g : Text → Text) (c : Text) :
    keysOf (rows.map fun r => { r with narrow_key := g r.narrow_key }) c =
      (keysOf rows c).map g := by
  unfold keysOf
  rw [List.filter_map, List.map_map, List.map_map]
  rfl

/-- If `k` was claimed by `c`, then after one expansion pass `c` (now a key of
the rewritten dataframe) is claimed by `c` itself. -/
theorem lookupA_expand_fix {rows : List BRow} {k c : Text}
    (h : lookupA (key_to_confirmed rows) k = some c) :
    lookupA (key_to_confirmed (expand_keys_with_confirmed rows)) c = some c := by
  obtain ⟨r0, hr0, hcyc0, hne0, hk0⟩ := lookupA_some_claimed h
  have hmin := lookupA_some_min h
  rw [key_to_confirmed_spec]
  unfold expand_keys_with_confirmed
  rw [confirmedIds_mapKey]
  apply find?_eq_some_of_min (sortedUnique_sortedLt _)
  · exact mem_confirmedIds.mpr ⟨r0, hr0, hcyc0, hne0⟩
  · rw [keysOf_mapKey]
    refine decide_eq_true (List.mem_map.mpr ⟨k, ?_, ?_⟩)
    · exact mem_keysOf.mpr ⟨r0, hr0, hcyc0, hne0, hk0⟩
    · simp [expandKey, h]
  · intro c' hc' hp
    rw [keysOf_mapKey] at hp
    obtain ⟨k', hk', hEk'⟩ := List.mem_map.mp (of_decide_eq_true hp)
    obtain ⟨r', hr', hcyc', hne', hkey'⟩ := mem_keysOf.mp hk'
    cases hl : lookupA (key_to_confirmed rows) k' with
    | none =>
      obtain ⟨c'', hc''⟩ :=
        lookupA_isSome_of_confirmed ⟨r', hr', by rw [hcyc']; exact hne', hkey'⟩
      rw [hl] at hc''
      exact absurd hc'' (by simp)
    | some c1 =>
      have hc1 : c1 = c := by
        have : expandKey rows k' = c1 := by simp [expandKey, hl]
        rw [← hEk']
        exact this.symm ▸ rfl
      subst hc1
      exact lookupA_some_min hl c' hc' hk'

theorem find?_congr {l : List Text} {p q : Text → Bool}
    (h : ∀ x ∈ l, p x = q x) : l.find? p = l.find? q := by
  induction l with
  | nil => rfl
  | cons a t ih =>
    cases hp : p a with
    | true =>
      rw [List.find?_cons_of_pos _ hp,
        List.find?_cons_of_pos _ ((h a (List.mem_cons_self _ _)) ▸ hp)]
    | false =>
      rw [List.find?_cons_of_neg _ (by simp [hp]),
        List.find?_cons_of_neg _ (by simp [← h a (List.mem_cons_self _ _), hp])]
      exact ih fun x hx => h x (List.mem_cons_of_mem a hx)

/-- Two permuted text lists have the same sorted duplicate-free enumeration. -/
theorem sortedUnique_perm {l l' : List Text} (h : List.Perm l l') :
    sortedUnique l = sortedUnique l' := by
  have hperm : List.Perm (sortTexts l) (sortTexts l') :=
    (sortTexts_perm l).trans (h.trans (sortTexts_perm l').symm)
  have : sortTexts l = sortTexts l' := by
    have inst : IsAntisymm Text (fun a b => leText a b = true) := ⟨fun _ _ => leText_antisymm⟩
    exact List.eq_of_perm_of_sorted hperm (sortTexts_sorted l) (sortTexts_sorted l')
  unfold sortedUnique
  rw [this]

/-- The distinct sorted confirmed ids only depend on the rows as a multiset. -/
theorem confirmedIds_perm {rows rows' : List BRow} (h : List.Perm rows rows') :
    confirmedIds rows = confirmedIds rows' :=
  sortedUnique_perm ((h.filter _).map _)

/-- Key-group membership only depends on the rows as a multiset. -/
theorem mem_keysOf_perm {rows rows' : List BRow} (h : List.Perm rows rows') (c q : Text) :
    (q ∈ keysOf rows c) = (q ∈ keysOf rows' c) := by
  apply propext
  rw [mem_keysOf, mem_keysOf]
  constructor
  · rintro ⟨r, hr, hrest⟩
    exact ⟨r, h.mem_iff.mp hr, hrest⟩
  · rintro ⟨r, hr, hrest⟩
    exact ⟨r, h.mem_iff.mpr hr, hrest⟩

/-- The expansion map is independent of the order of the input rows. -/
theorem expandKey_perm {rows rows' : List BRow} (h : List.Perm rows rows') (k : Text) :
    expandKey rows k = expandKey rows' k := by
  unfold expandKey
  rw [key_to_confirmed_spec, key_to_confirmed_spec, confirmedIds_perm h]
  rw [find?_congr fun c _ => decide_eq_decide.mpr (iff_of_eq (mem_keysOf_perm h c k))]

/-- Applying the expansion map twice is the same as applying it once —
for every key, not only keys present in the dataframe. -/
theorem expandKey_idem (rows : List BRow) (k : Text) :
    expandKey (expand_keys_with_confirmed rows) (expandKey rows k) = expandKey rows k := by
  cases h1 : lookupA (key_to_confirmed rows) k with
  | some c =>
    have hEk : expandKey rows k = c := by simp [expandKey, h1]
    rw [hEk]
    simp [expandKey, lookupA_expand_fix h1]
  | none =>
    have hEk : expandKey rows k = k := by simp [expandKey, h1]
    rw [hEk]
    cases h2 : lookupA (key_to_confirmed (expand_keys_with_confirmed rows)) k with
    | none => simp [expandKey, h2]
    | some c =>
      obtain ⟨r', hr', hcyc', hne', hkey'⟩ := lookupA_some_claimed h2
      obtain ⟨r, hr, hrf⟩ := List.mem_map.mp hr'
      have hrcyc : r.cross_year_confirmed = c := by rw [← hrf] at hcyc'; exact hcyc'
      have hrkey : expandKey rows r.narrow_key = k := by rw [← hrf] at hkey'; exact hkey'
      cases hl : lookupA (key_to_confirmed rows) r.narrow_key with
      | none =>
        have : r.narrow_key = k := by
          rw [← hrkey]; simp [expandKey, hl]
        obtain ⟨c'', hc''⟩ := lookupA_isSome_of_confirmed
          ⟨r, hr, by rw [hrcyc]; exact hne', by rw [this]⟩
        rw [h1] at hc''
        exact absurd hc'' (by simp)
      | some c1 =>
        have hc1 : c1 = k := by
          have : expandKey rows r.narrow_key = c1 := by simp [expandKey, hl]
          rw [this] at hrkey
          exact hrkey
        subst hc1
        have := lookupA_expand_fix hl
        rw [h2] at this
        injection this with this
        simp [expandKey, h2, this]

/-! # Claim theorems -/

/-- C4: for every group of records sharing the same (post-expansion) key, the
assigned `cross_year_narrow` equals `"{variable_name}_narrow_{year}"` of the
group member with the smallest year, ties broken by lexicographically
smallest `variable_name`; and the assignment is identical under any
permutation of the input rows. -/
theorem C4_bridge_representative_min_and_order_independent :
    (∀ (rows : List BRow) (r : BRow), r ∈ rows →
      ∃ q ∈ rows, q.narrow_key = r.narrow_key ∧
        (∀ p ∈ rows, p.narrow_key = r.narrow_key →
          LePairP (q.year, q.variable_name) (p.year, p.variable_name)) ∧
        bridgeId rows r.narrow_key = mkNarrowId q.variable_name q.year) ∧
    (∀ (rows rows' : List BRow), List.Perm rows rows' →
      ∀ k, bridgeId rows k = bridgeId rows' k) := by
  constructor
  · intro rows r hr
    have hmem : (r.year, r.variable_name) ∈ groupPairs rows r.narrow_key :=
      List.mem_map.mpr ⟨r, List.mem_filter.mpr ⟨hr, by simp⟩, rfl⟩
    cases hg : groupPairs rows r.narrow_key with
    | nil => rw [hg] at hmem; exact absurd hmem (by simp)
    | cons p ps =>
      have hrepmem : ps.foldl minPair p ∈ groupPairs rows r.narrow_key := by
        rw [hg]; exact foldl_minPair_mem p ps
      obtain ⟨q, hqf, hqp⟩ := List.mem_map.mp hrepmem
      have hq := List.mem_filter.mp hqf
      refine ⟨q, hq.1, of_decide_eq_true hq.2, ?_, ?_⟩
      · intro p' hp' hk'
        have hp'mem : (p'.year, p'.variable_name) ∈ groupPairs rows r.narrow_key :=
          List.mem_map.mpr ⟨p', List.mem_filter.mpr ⟨hp', by simp [hk']⟩, rfl⟩
        rw [hg] at hp'mem
        rw [hqp]
        exact foldl_minPair_le p ps _ hp'mem
      · unfold bridgeId
        rw [hg]
        show mkNarrowId (ps.foldl minPair p).2 (ps.foldl minPair p).1 = _
        rw [← hqp]
  · intro rows rows' h k
    exact bridgeId_perm h k

/-- C4 witness: in a two-row group the 2002 row's `(year, name)` is the
representative. -/
theorem C4_witness :
    ∃ q ∈ [(⟨2003, codes "MRJFLAG", [], [], [], [], [], codes "K"⟩ : BRow),
           (⟨2002, codes "MRJFLAG", [], [], [], [], [], codes "K"⟩ : BRow)],
      q.narrow_key = codes "K" ∧
        (∀ p ∈ [(⟨2003, codes "MRJFLAG", [], [], [], [], [], codes "K"⟩ : BRow),
                (⟨2002, codes "MRJFLAG", [], [], [], [], [], codes "K"⟩ : BRow)],
          p.narrow_key = codes "K" →
          LePairP (q.year, q.variable_name) (p.year, p.variable_name)) ∧
        bridgeId [(⟨2003, codes "MRJFLAG", [], [], [], [], [], codes "K"⟩ : BRow),
                  (⟨2002, codes "MRJFLAG", [], [], [], [], [], codes "K"⟩ : BRow)]
          (codes "K") = mkNarrowId q.variable_name q.year := by
  have h := C4_bridge_representative_min_and_order_independent.1
    [(⟨2003, codes "MRJFLAG", [], [], [], [], [], codes "K"⟩ : BRow),
     (⟨2002, codes "MRJFLAG", [], [], [], [], [], codes "K"⟩ : BRow)]
    (⟨2003, codes "MRJFLAG", [], [], [], [], [], codes "K"⟩ : BRow)
    (List.mem_cons_self _ _)
  exact h

/-- C5: running the Equivalence Expander a second time on its own output
changes no key: the expansion pass is idempotent on the dataframe. -/
theorem C5_expansion_idempotent (rows : List BRow) :
    expand_keys_with_confirmed (expand_keys_with_confirmed rows) =
      expand_keys_with_confirmed rows := by
  show (expand_keys_with_confirmed rows).map (fun r => { r with narrow_key := (expandKey
      (expand_keys_with_confirmed rows) r.narrow_key) }) = expand_keys_with_confirmed rows
  have hpt : ∀ r' ∈ expand_keys_with_confirmed rows,
      ({ r' with narrow_key := (expandKey
        (expand_keys_with_confirmed rows) r'.narrow_key) } : BRow) = r' := by
    intro r' hr'
    obtain ⟨r, _, rfl⟩ := List.mem_map.mp hr'
    show ({ r with narrow_key := (expandKey
        (expand_keys_with_confirmed rows) (expandKey rows r.narrow_key)) } : BRow) =
      { r with narrow_key := expandKey rows r.narrow_key }
    rw [expandKey_idem rows r.narrow_key]
  rw [List.map_congr_left hpt, List.map_id']

/-- C10: confirmed groups are processed in ascending sorted order of their
`cross_year_confirmed` id, so a contested `narrow_key` is claimed by the
lexicographically smallest id among the groups observing it; and the
expansion of any key is independent of the input row order. -/
theorem C10_conflict_winner_lex_least :
    (∀ (rows : List BRow) (k : Text),
      (∃ r ∈ rows, r.cross_year_confirmed ≠ [] ∧ r.narrow_key = k) →
      ∃ c, lookupA (key_to_confirmed rows) k = some c ∧
        (∃ r ∈ rows, r.cross_year_confirmed = c ∧ c ≠ [] ∧ r.narrow_key = k) ∧
        (∀ r ∈ rows, r.cross_year_confirmed ≠ [] → r.narrow_key = k →
          leText c r.cross_year_confirmed = true)) ∧
    (∀ (rows rows' : List BRow), List.Perm rows rows' →
      ∀ k, expandKey rows k = expandKey rows' k) := by
  constructor
  · intro rows k h
    exact expandKey_spec h
  · intro rows rows' h k
    exact expandKey_perm h k

/-- C10 witness: a key observed under groups `"B"` and `"A"` is claimed by
`"A"`, the lexicographically smaller id. -/
theorem C10_witness :
    ∃ c, lookupA (key_to_confirmed
        [(⟨2002, codes "N1", codes "B", [], [], [], [], codes "K1"⟩ : BRow),
         (⟨2001, codes "N1", codes "A", [], [], [], [], codes "K1"⟩ : BRow)])
        (codes "K1") = some c ∧
      (∃ r ∈ [(⟨2002, codes "N1", codes "B", [], [], [], [], codes "K1"⟩ : BRow),
              (⟨2001, codes "N1", codes "A", [], [], [], [], codes "K1"⟩ : BRow)],
        r.cross_year_confirmed = c ∧ c ≠ [] ∧ r.narrow_key = codes "K1") ∧
      (∀ r ∈ [(⟨2002, codes "N1", codes "B", [], [], [], [], codes "K1"⟩ : BRow),
              (⟨2001, codes "N1", codes "A", [], [], [], [], codes "K1"⟩ : BRow)],
        r.cross_year_confirmed ≠ [] → r.narrow_key = codes "K1" →
        leText c r.cross_year_confirmed = true) :=
  C10_conflict_winner_lex_least.1
    [(⟨2002, codes "N1", codes "B", [], [], [], [], codes "K1"⟩ : BRow),
     (⟨2001, codes "N1", codes "A", [], [], [], [], codes "K1"⟩ : BRow)]
    (codes "K1")
    ⟨⟨2002, codes "N1", codes "B", [], [], [], [], codes "K1"⟩,
      List.mem_cons_self _ _, by decide, rfl⟩

/-- C7: `measure_type` defaults to `"use"` and is decided by the first
matching rule in the fixed order FLAG/INDICATOR → AGE/FIRST → ABUSE/DEPEND;
in particular `"AGE FIRST USE FLAG"` yields `"use_indicator"` because the
indicator check precedes the age/first check. -/
theorem C7_measure_type_priority :
    (∀ n l, searchWords [codes "FLAG", codes "INDICATOR"] (featureText n l) = true →
      (extract_semantic_features n l).measure_type = codes "use_indicator") ∧
    (∀ n l, searchWords [codes "FLAG", codes "INDICATOR"] (featureText n l) = false →
      searchWords [codes "AGE", codes "FIRST"] (featureText n l) = true →
      (extract_semantic_features n l).measure_type = codes "age_first_use") ∧
    (∀ n l, searchWords [codes "FLAG", codes "INDICATOR"] (featureText n l) = false →
      searchWords [codes "AGE", codes "FIRST"] (featureText n l) = false →
      searchWords [codes "ABUSE", codes "DEPEND"] (featureText n l) = true →
      (extract_semantic_features n l).measure_type = codes "abuse_dependence") ∧
    (∀ n l, searchWords [codes "FLAG", codes "INDICATOR"] (featureText n l) = false →
      searchWords [codes "AGE", codes "FIRST"] (featureText n l) = false →
      searchWords [codes "ABUSE", codes "DEPEND"] (featureText n l) = false →
      (extract_semantic_features n l).measure_type = codes "use") ∧
    ((extract_semantic_features (codes "V1")
        (some (codes "AGE FIRST USE FLAG"))).measure_type = codes "use_indicator" ∧
      searchWords [codes "AGE", codes "FIRST"]
        (featureText (codes "V1") (some (codes "AGE FIRST USE FLAG"))) = true) := by
  refine ⟨?_, ?_, ?_, ?_, by decide⟩
  · intro n l h
    simp only [extract_semantic_features, h, if_true]
  · intro n l h1 h2
    simp only [extract_semantic_features, h1, h2]
    rfl
  · intro n l h1 h2 h3
    simp only [extract_semantic_features, h1, h2, h3]
    rfl
  · intro n l h1 h2 h3
    simp only [extract_semantic_features, h1, h2, h3]
    rfl

/-- C7 witness: the concrete `"AGE FIRST USE FLAG"` resolution, derived by
instantiating the first conjunct. -/
theorem C7_witness :
    (extract_semantic_features (codes "V1")
      (some (codes "AGE FIRST USE FLAG"))).measure_type = codes "use_indicator" :=
  C7_measure_type_priority.1 (codes "V1") (some (codes "AGE FIRST USE FLAG")) (by decide)

/-- C9: classification and normalization are total; unmatched substance input
maps to `"other"`, unmatched time input maps to the empty string, and
`"RESPONDENT ID"` yields `substance="other"`, `time_period=""`,
`measure_type="use"`. -/
theorem C9_classification_total_defaults :
    (∀ n l, (substance_patterns.all fun p => !searchWords p.2 (featureText n l)) = true →
      (extract_semantic_features n l).substance = codes "other") ∧
    (∀ n l, (time_patterns.all fun p => !(p.2 (featureText n l))) = true →
      (extract_semantic_features n l).time_period = []) ∧
    extract_semantic_features (codes "X1") (some (codes "RESPONDENT ID")) =
      ⟨codes "other", [], codes "use"⟩ := by
  refine ⟨?_, ?_, by decide⟩
  · intro n l h
    have hnone : substance_patterns.find? (fun p => searchWords p.2 (featureText n l)) = none := by
      rw [List.find?_eq_none]
      intro p hp
      have := List.all_eq_true.mp h p hp
      simp at this
      simp [this]
    simp only [extract_semantic_features, hnone]
  · intro n l h
    have hnone : time_patterns.find? (fun p => p.2 (featureText n l)) = none := by
      rw [List.find?_eq_none]
      intro p hp
      have := List.all_eq_true.mp h p hp
      simp at this
      simp [this]
    simp only [extract_semantic_features, hnone]

/-- C9 witness: concrete default classification of an id variable, by
instantiating the first conjunct. -/
theorem C9_witness :
    (extract_semantic_features (codes "X1") (some (codes "CASE NUMBER"))).substance =
      codes "other" :=
  C9_classification_total_defaults.1 (codes "X1") (some (codes "CASE NUMBER")) (by decide)

/-- C8: the ordered `clean_label` rules — missing → empty; uppercase and trim;
strip leading `RC-`; strip leading `ADULT:`/`YOUTH:`; strip a trailing
`(-) EVER USED` phrase when LIFETIME/EVER occurs — give
`clean_label("RC-ADULT: COCAINE - EVER USED") = "COCAINE"`.  The last
conjunct witnesses the order: `RC-` is stripped before `ADULT:`, so an
`RC-` exposed by the `ADULT:` rule survives. -/
theorem C8_clean_label_rules :
    clean_label (some (codes "RC-ADULT: COCAINE - EVER USED")) = codes "COCAINE" ∧
    clean_label none = [] ∧
    clean_label (some (codes "  rc-Adult: Cocaine  ")) = codes "COCAINE" ∧
    clean_label (some (codes "ADULT: RC-COCAINE")) = codes "RC-COCAINE" := by decide

/-- C3 counterexample: `clean_label` is not idempotent on a label beginning
`ADULT: RC-`: the first pass exposes the `RC-` prefix, which only the second
pass strips. -/
theorem C3_counterexample :
    clean_label (some (clean_label (some (codes "ADULT: RC-HEROIN")))) ≠
      clean_label (some (codes "ADULT: RC-HEROIN")) := by decide

/-- C3 (amended): `clean_label` is idempotent at every input whose cleaned
output exposes no further strippable prefix (`RC-`, `ADULT:`, `YOUTH:`) and
no strippable `EVER USED` phrase; labels such as `"ADULT: RC-..."`, whose
first pass exposes a fresh `RC-` prefix, are the only exceptions. -/
theorem C3_amended_idempotent_on_stable_output (x : Option Text)
    (hrc : leadsWith [82, 67, 45] (clean_label x) = false)
    (had : leadsWith [65, 68, 85, 76, 84, 58] (clean_label x) = false)
    (hyo : leadsWith [89, 79, 85, 84, 72, 58] (clean_label x) = false)
    (hev : (containsSub [76, 73, 70, 69, 84, 73, 77, 69] (clean_label x) ||
        containsSub [69, 86, 69, 82] (clean_label x)) = true →
      everFree (clean_label x) = true) :
    clean_label (some (clean_label x)) = clean_label x :=
  clean_label_fix (clean_label_isUpper x) (clean_label_noEdgeWs x) hrc had hyo hev

/-- C3 witness: idempotence at `"MARIJUANA - EVER USED"`. -/
theorem C3_witness :
    clean_label (some (clean_label (some (codes "MARIJUANA - EVER USED")))) =
      clean_label (some (codes "MARIJUANA - EVER USED")) :=
  C3_amended_idempotent_on_stable_output (some (codes "MARIJUANA - EVER USED"))
    (by decide) (by decide) (by decide) (by decide)

/-- Three rows exercising a key conflict between two confirmed groups: the
rows of group `N1_fB_G1` (first and second) end with different narrow
bridges, because the first row's key is stolen by the earlier-processed
group `N1_fA_G1`. -/
def c2rows : List SRow :=
  [⟨2002, codes "N1", some (codes "L1"), codes "N1_fB_G1"⟩,
   ⟨2003, codes "N1", some (codes "L2"), codes "N1_fB_G1"⟩,
   ⟨2001, codes "N1", some (codes "L1"), codes "N1_fA_G1"⟩]

/-- C2 counterexample: two records with the same non-empty
`cross_year_confirmed` receive different `cross_year_narrow` values when one
of their narrow keys is also observed under an earlier-processed confirmed
group. -/
theorem C2_counterexample :
    ((compute_semantic_bridges c2rows).map Prod.snd =
      [codes "N1_narrow_2001", codes "N1_narrow_2003", codes "N1_narrow_2001"]) ∧
    (c2rows.map SRow.cross_year_confirmed =
      [codes "N1_fB_G1", codes "N1_fB_G1", codes "N1_fA_G1"]) ∧
    codes "N1_narrow_2001" ≠ codes "N1_narrow_2003" := by decide

/-- C2 (amended): two records sharing a non-empty `cross_year_confirmed`
value share the same expanded key — and hence the same `cross_year_narrow` —
provided neither record's `narrow_key` is claimed by an earlier-processed
(lexicographically smaller) confirmed group. -/
theorem C2_amended_shared_confirmed_same_narrow (rows : List BRow) (r1 r2 : BRow)
    (h1 : r1 ∈ rows) (h2 : r2 ∈ rows)
    (hcyc : r1.cross_year_confirmed = r2.cross_year_confirmed)
    (hne : r1.cross_year_confirmed ≠ [])
    (hmin1 : ∀ r ∈ rows, r.cross_year_confirmed ≠ [] → r.narrow_key = r1.narrow_key →
      leText r1.cross_year_confirmed r.cross_year_confirmed = true)
    (hmin2 : ∀ r ∈ rows, r.cross_year_confirmed ≠ [] → r.narrow_key = r2.narrow_key →
      leText r1.cross_year_confirmed r.cross_year_confirmed = true) :
    expandKey rows r1.narrow_key = expandKey rows r2.narrow_key ∧
    bridgeId (expand_keys_with_confirmed rows) (expandKey rows r1.narrow_key) =
      bridgeId (expand_keys_with_confirmed rows) (expandKey rows r2.narrow_key) := by
  have key1 : lookupA (key_to_confirmed rows) r1.narrow_key =
      some r1.cross_year_confirmed := by
    rw [key_to_confirmed_spec]
    apply find?_eq_some_of_min (sortedUnique_sortedLt _)
    · exact mem_confirmedIds.mpr ⟨r1, h1, rfl, hne⟩
    · exact decide_eq_true (mem_keysOf.mpr ⟨r1, h1, rfl, hne, rfl⟩)
    · intro c' _ hp
      obtain ⟨r, hr, hrc, hcne, hrk⟩ := mem_keysOf.mp (of_decide_eq_true hp)
      rw [← hrc]
      exact hmin1 r hr (by rw [hrc]; exact hcne) hrk
  have key2 : lookupA (key_to_confirmed rows) r2.narrow_key =
      some r1.cross_year_confirmed := by
    rw [key_to_confirmed_spec]
    apply find?_eq_some_of_min (sortedUnique_sortedLt _)
    · exact mem_confirmedIds.mpr ⟨r1, h1, rfl, hne⟩
    · exact decide_eq_true (mem_keysOf.mpr ⟨r2, h2, hcyc.symm, hne, rfl⟩)
    · intro c' _ hp
      obtain ⟨r, hr, hrc, hcne, hrk⟩ := mem_keysOf.mp (of_decide_eq_true hp)
      rw [← hrc]
      exact hmin2 r hr (by rw [hrc]; exact hcne) hrk
  have hkeys : expandKey rows r1.narrow_key = expandKey rows r2.narrow_key := by
    simp [expandKey, key1, key2]
  exact ⟨hkeys, by rw [hkeys]⟩

/-- C2 witness: two rows of one confirmed group (no competing group)
collapse to one expanded key and one bridge id. -/
theorem C2_witness :
    expandKey
      [(⟨2002, codes "N1", codes "B", [], [], [], [], codes "K1"⟩ : BRow),
       (⟨2003, codes "N2", codes "B", [], [], [], [], codes "K2"⟩ : BRow)]
      (codes "K1") =
    expandKey
      [(⟨2002, codes "N1", codes "B", [], [], [], [], codes "K1"⟩ : BRow),
       (⟨2003, codes "N2", codes "B", [], [], [], [], codes "K2"⟩ : BRow)]
      (codes "K2") :=
  (C2_amended_shared_confirmed_same_narrow
    [(⟨2002, codes "N1", codes "B", [], [], [], [], codes "K1"⟩ : BRow),
     (⟨2003, codes "N2", codes "B", [], [], [], [], codes "K2"⟩ : BRow)]
    (⟨2002, codes "N1", codes "B", [], [], [], [], codes "K1"⟩ : BRow)
    (⟨2003, codes "N2", codes "B", [], [], [], [], codes "K2"⟩ : BRow)
    (by decide) (by decide) (by decide) (by decide) (by decide) (by decide)).1

/-- The scenario of claim C1: base rows `(2002, MRJFLAG)` and
`(2010, MARJFLAG)`, both mapped by the concordance file `F` to confirmed
group `MRJ_01`. -/
def c1base : List BaseRow :=
  [⟨2002, codes "MRJFLAG", some (codes "LA")⟩,
   ⟨2010, codes "MARJFLAG", some (codes "LB")⟩]

/-- The concordance entries of the C1 scenario. -/
def c1conc : List ConcRow :=
  [⟨2002, codes "MRJFLAG", codes "MRJ_01", codes "F"⟩,
   ⟨2010, codes "MARJFLAG", codes "MRJ_01", codes "F"⟩]

/-- C1 counterexample: the two records of the scenario do NOT receive the
same `cross_year_narrow`.  Sharing `confirmed_group` `"MRJ_01"` does not make
them share `cross_year_confirmed`, because that id embeds `variable_name`
(`variable_name + '_' + concordance_file + '_' + confirmed_group`). -/
theorem C1_counterexample :
    ((build_variable_metadata c1base c1conc).map Prod.snd =
      [codes "MRJFLAG_narrow_2002", codes "MARJFLAG_narrow_2010"]) ∧
    codes "MRJFLAG_narrow_2002" ≠ codes "MARJFLAG_narrow_2010" ∧
    ((leftJoin c1base c1conc).map (fun j => (deriveConfirmed j).cross_year_confirmed) =
      [codes "MRJFLAG_F_MRJ_01", codes "MARJFLAG_F_MRJ_01"]) ∧
    codes "MRJFLAG_F_MRJ_01" ≠ codes "MARJFLAG_F_MRJ_01" := by decide

/-- The C1 scenario amended so that both records carry the same
`variable_name` `MRJFLAG`. -/
def c1base' : List BaseRow :=
  [⟨2002, codes "MRJFLAG", some (codes "LA")⟩,
   ⟨2010, codes "MRJFLAG", some (codes "LB")⟩]

/-- Concordance entries for the amended C1 scenario. -/
def c1conc' : List ConcRow :=
  [⟨2002, codes "MRJFLAG", codes "MRJ_01", codes "F"⟩,
   ⟨2010, codes "MRJFLAG", codes "MRJ_01", codes "F"⟩]

/-- C1 (amended): two records sharing `confirmed_group`, concordance file AND
`variable_name` share `cross_year_confirmed`, and despite different labels
both collapse to the single bridge `MRJFLAG_narrow_2002`. -/
theorem C1_amended_same_name_collapses :
    ((leftJoin c1base' c1conc').map (fun j => (deriveConfirmed j).cross_year_confirmed) =
      [codes "MRJFLAG_F_MRJ_01", codes "MRJFLAG_F_MRJ_01"]) ∧
    ((build_variable_metadata c1base' c1conc').map Prod.snd =
      [codes "MRJFLAG_narrow_2002", codes "MRJFLAG_narrow_2002"]) := by decide

/-- A base table with one row and a concordance contributing two entries for
the same `(year, variable_name)` pair. -/
def c6base : List BaseRow := [⟨2002, codes "V", some (codes "L")⟩]

/-- Two concordance entries for `(2002, V)` (e.g. the same variable listed by
two concordance files). -/
def c6conc : List ConcRow :=
  [⟨2002, codes "V", codes "G1", codes "F1"⟩,
   ⟨2002, codes "V", codes "G2", codes "F2"⟩]

/-- C6 counterexample: when the concordance contributes two entries for one
`(year, variable_name)` pair, the left join duplicates the base row and the
final table carries the pair twice — not exactly once. -/
theorem C6_counterexample :
    ((build_variable_metadata c6base c6conc).map (fun p => (p.1.year, p.1.variable_name)) =
      [(2002, codes "V"), (2002, codes "V")]) ∧
    (c6base.map (fun b => (b.year, b.variable_name)) = [(2002, codes "V")]) ∧
    [(2002, codes "V"), (2002, codes "V")] ≠ [(2002, codes "V")] := by decide

/-- C6 (amended): provided the concordance has at most one entry per
`(year, variable_name)`, the output table carries exactly the
`(year, variable_name)` pairs of the base source, in order — no pair is
duplicated or dropped by the joins and derivation stages. -/
theorem C6_amended_unique_concordance_preserves_rows
    (base : List BaseRow) (conc : List ConcRow)
    (h : (conc.map fun c => (c.year, c.variable_name)).Nodup) :
    (build_variable_metadata base conc).map (fun p => (p.1.year, p.1.variable_name)) =
      base.map fun b => (b.year, b.variable_name) := by
  unfold build_variable_metadata
  rw [compute_semantic_bridges_pairs, List.map_map]
  exact leftJoin_pairs h

/-- C6 witness: a concrete unique-keyed concordance preserves the base pairs. -/
theorem C6_witness :
    (build_variable_metadata [(⟨2002, codes "V", some (codes "L")⟩ : BaseRow)]
        [(⟨2002, codes "V", codes "G1", codes "F1"⟩ : ConcRow)]).map
      (fun p => (p.1.year, p.1.variable_name)) =
    [(⟨2002, codes "V", some (codes "L")⟩ : BaseRow)].map
      (fun b => (b.year, b.variable_name)) :=
  C6_amended_unique_concordance_preserves_rows
    [(⟨2002, codes "V", some (codes "L")⟩ : BaseRow)]
    [(⟨2002, codes "V", codes "G1", codes "F1"⟩ : ConcRow)] (by decide)
